import Mathlib

/-!
Verification of the ipcv frequency-domain filtering pipeline:
the distance-grid geometry, the six filter-mask constructors
(filter_lowpass, filter_highpass, filter_bandreject, filter_bandpass,
filter_notchreject, filter_notchpass) and the mask application step
(frequency_filter).  Masks are embedded pointwise as functions from a
pair of pixel indices to a real weight; an image enters only through its
row/column extent, exactly as in the source, where the `im` argument is
used solely via ipcv.dimensions.
-/

namespace Ipcv

noncomputable section

/-- The three filter shapes (the ipcv constants IPCV_IDEAL,
IPCV_BUTTERWORTH, IPCV_GAUSSIAN). -/
inductive FilterShape
  | ideal
  | butterworth
  | gaussian
deriving DecidableEq

/-- Python-style nonnegative remainder turned into an index of an axis of
extent n.  numpy.roll semantics: rolled[i] = original[(i - shift) mod n],
and Python's mod of a positive modulus is nonnegative, as is Int.emod. -/
def wrapIdx (n : ℕ) (k : ℤ) : ℕ := (k % (n : ℤ)).toNat

/-- Modelled from the spec: ipcv.dist is one of the two external numeric
utilities not present in the repository sources.  Per §4.1/§6 it is the
periodic corner-origin distance grid: the value at (r, c) is the Euclidean
distance computed from the wrapped offsets min(r, rows−r) and
min(c, columns−c).  This is the squared distance, a natural number. -/
def distSq (rows cols i j : ℕ) : ℕ := (min i (rows - i)) ^ 2 + (min j (cols - j)) ^ 2

/-- Modelled from the spec: the periodic corner-origin distance value
itself (the square root of distSq). -/
def distVal (rows cols i j : ℕ) : ℝ := Real.sqrt (distSq rows cols i j)

/-- The centered distance grid every constructor builds: ipcv.dist rolled
by rows/2 along axis 0 and by cols/2 along axis 1 (integer division),
as in filter_lowpass.py lines 61-63 and the matching lines of the other
constructors. -/
def centeredDist (rows cols : ℕ) (i j : ℕ) : ℝ :=
  distVal rows cols (wrapIdx rows ((i : ℤ) - (rows / 2 : ℕ)))
    (wrapIdx cols ((j : ℤ) - (cols / 2 : ℕ)))

/-- filter_lowpass.py: the lowpass mask value at pixel (i, j) for an image
of the given extent.  Ideal thresholds the centered distance (the two
boolean-mask assignments partition the pixels, so a single conditional is
exact); Butterworth is 1/(1+(d/c)^(2·order)); Gaussian is
exp(−d²/(2·c²)). -/
def filter_lowpass (rows cols : ℕ) (cutoff : ℝ) (order : ℕ) (shape : FilterShape)
    (i j : ℕ) : ℝ :=
  let d := centeredDist rows cols i j
  match shape with
  | .ideal => if d ≤ cutoff then 1 else 0
  | .butterworth => 1 / (1 + (d / cutoff) ^ (2 * order))
  | .gaussian => Real.exp (-(d ^ 2) / (2 * cutoff ^ 2))

/-- filter_highpass.py line 46: one minus the lowpass mask. -/
def filter_highpass (rows cols : ℕ) (cutoff : ℝ) (order : ℕ) (shape : FilterShape)
    (i j : ℕ) : ℝ :=
  1 - filter_lowpass rows cols cutoff order shape i j

/-- The Butterworth band denominator d² − r² of filter_bandreject.py
line 77; it is zero on the circle d = r and no epsilon is substituted. -/
def bandButterDenom (rows cols : ℕ) (radialCenter : ℝ) (i j : ℕ) : ℝ :=
  (centeredDist rows cols i j) ^ 2 - radialCenter ^ 2

/-- The Gaussian band denominator d·w of filter_bandreject.py line 80; it
is zero at the grid center d = 0 and no epsilon is substituted. -/
def bandGaussDenom (rows cols : ℕ) (bandwidth : ℝ) (i j : ℕ) : ℝ :=
  centeredDist rows cols i j * bandwidth

/-- filter_bandreject.py: the bandreject mask value at pixel (i, j).
Ideal starts from zeros and sets pixels with d < r or d > r+w to one;
Butterworth is 1/(1+((d·w)/(d²−r²))²·order) — order is a factor, not an
exponent, exactly as coded; Gaussian is 1 − exp(−0.5·((d²−r²)/(d·w))²). -/
def filter_bandreject (rows cols : ℕ) (radialCenter bandwidth : ℝ) (order : ℕ)
    (shape : FilterShape) (i j : ℕ) : ℝ :=
  let d := centeredDist rows cols i j
  match shape with
  | .ideal => if d < radialCenter ∨ radialCenter + bandwidth < d then 1 else 0
  | .butterworth =>
      1 / (1 + (d * bandwidth / bandButterDenom rows cols radialCenter i j) ^ 2 * (order : ℝ))
  | .gaussian =>
      1 - Real.exp (-(1 / 2) *
        (bandButterDenom rows cols radialCenter i j / bandGaussDenom rows cols bandwidth i j) ^ 2)

/-- filter_bandpass.py line 54: one minus the bandreject mask. -/
def filter_bandpass (rows cols : ℕ) (radialCenter bandwidth : ℝ) (order : ℕ)
    (shape : FilterShape) (i j : ℕ) : ℝ :=
  1 - filter_bandreject rows cols radialCenter bandwidth order shape i j

/-- Errors a Python call can surface: an out-of-range list index
(IndexError), and the InvalidParameter validation error named by the
spec's error taxonomy (§7), which no code path in the source raises. -/
inductive PyErr
  | indexError
  | invalidParameter
deriving DecidableEq

/-- The first per-notch distance grid D1 of filter_notchreject.py line 74:
the centered grid rolled by rows/2 − u along axis 1 (columns) and by
cols/2 − v along axis 0 (rows), for notch center (u, v).  The source
swaps the roles of the two half-extents between the axes, which the
embedding reproduces verbatim. -/
def notchD1 (rows cols : ℕ) (u v : ℤ) (i j : ℕ) : ℝ :=
  centeredDist rows cols (wrapIdx rows ((i : ℤ) - ((cols / 2 : ℕ) - v)))
    (wrapIdx cols ((j : ℤ) - ((rows / 2 : ℕ) - u)))

/-- The second per-notch distance grid D2 of filter_notchreject.py
line 75: as notchD1 but shifted by the negated notch center. -/
def notchD2 (rows cols : ℕ) (u v : ℤ) (i j : ℕ) : ℝ :=
  centeredDist rows cols (wrapIdx rows ((i : ℤ) - ((cols / 2 : ℕ) + v)))
    (wrapIdx cols ((j : ℤ) - ((rows / 2 : ℕ) + u)))

/-- productOfDs = D1 · D2 of filter_notchreject.py line 85.  The guard on
line 86 reads productOfDs[productOfDs == 0] == 1e-10: a comparison
expression, not an assignment, so it has no effect on the array and is
accordingly absent from the embedding. -/
def productOfDs (rows cols : ℕ) (u v : ℤ) (i j : ℕ) : ℝ :=
  notchD1 rows cols u v i j * notchD2 rows cols u v i j

/-- One iteration of the notch loop of filter_notchreject.py lines 70-92:
fold the weight contributed by the notch at (u, v) with radius ρ into the
running mask.  Ideal overwrites rejected pixels with zero; Butterworth and
Gaussian multiply the running mask by the per-notch weight. -/
def notchStep (rows cols order : ℕ) (shape : FilterShape) (u v : ℤ) (ρ : ℝ)
    (mask : ℕ → ℕ → ℝ) : ℕ → ℕ → ℝ :=
  fun i j =>
    match shape with
    | .ideal =>
        if notchD1 rows cols u v i j ≤ ρ ∨ notchD2 rows cols u v i j ≤ ρ then 0
        else mask i j
    | .butterworth =>
        mask i j * (1 / (1 + (ρ ^ 2 / productOfDs rows cols u v i j) ^ order))
    | .gaussian =>
        mask i j * (1 - Real.exp (-(1 / 2) * productOfDs rows cols u v i j / ρ ^ 2))

/-- The loop for center in range(len(notchCenter)) of
filter_notchreject.py: step k reads notchCenter[k] and notchRadius[k], so
the first index past the end of notchRadius raises IndexError and the
loop aborts without producing a mask. -/
def notchLoop (rows cols order : ℕ) (shape : FilterShape) :
    List (ℤ × ℤ) → List ℝ → (ℕ → ℕ → ℝ) → Except PyErr (ℕ → ℕ → ℝ)
  | [], _, mask => .ok mask
  | _ :: _, [], _ => .error .indexError
  | c :: cs, ρ :: ρs, mask =>
      notchLoop rows cols order shape cs ρs (notchStep rows cols order shape c.1 c.2 ρ mask)

/-- filter_notchreject.py: an all-ones initial mask, the per-notch loop,
and then one further roll by rows/2 along axis 0 and cols/2 along axis 1
(line 95) before the mask is returned. -/
def filter_notchreject (rows cols : ℕ) (centers : List (ℤ × ℤ)) (radii : List ℝ)
    (order : ℕ) (shape : FilterShape) : Except PyErr (ℕ → ℕ → ℝ) :=
  (notchLoop rows cols order shape centers radii (fun _ _ => 1)).map
    (fun m i j => m (wrapIdx rows ((i : ℤ) - (rows / 2 : ℕ)))
      (wrapIdx cols ((j : ℤ) - (cols / 2 : ℕ))))

/-- filter_notchpass.py line 49: one minus the notchreject mask; an
exception from filter_notchreject propagates. -/
def filter_notchpass (rows cols : ℕ) (centers : List (ℤ × ℤ)) (radii : List ℝ)
    (order : ℕ) (shape : FilterShape) : Except PyErr (ℕ → ℕ → ℝ) :=
  (filter_notchreject rows cols centers radii order shape).map (fun m i j => 1 - m i j)

/-- Extract the mask of a successful call (all zeros for a failed one);
used to state closed facts about concrete calls. -/
def maskOf (e : Except PyErr (ℕ → ℕ → ℝ)) : ℕ → ℕ → ℝ :=
  match e with
  | .ok m => m
  | .error _ => fun _ _ => 0

/-- numpy.fft.fft2: the unnormalized forward 2-D discrete Fourier
transform, F[u,v] = Σ over x and y of f[x,y]·exp(−2πi·(u·x/rows + v·y/cols)). -/
def fft2 (rows cols : ℕ) (f : ℕ → ℕ → ℂ) (u v : ℕ) : ℂ :=
  ∑ x ∈ Finset.range rows, ∑ y ∈ Finset.range cols,
    f x y * Complex.exp (-(2 * (Real.pi : ℂ) * Complex.I) *
      ((u : ℂ) * (x : ℂ) / (rows : ℂ) + (v : ℂ) * (y : ℂ) / (cols : ℂ)))

/-- numpy.fft.ifft2: the inverse 2-D discrete Fourier transform with the
1/(rows·cols) normalization numpy applies. -/
def ifft2 (rows cols : ℕ) (F : ℕ → ℕ → ℂ) (x y : ℕ) : ℂ :=
  (1 / ((rows : ℂ) * (cols : ℂ))) *
    ∑ u ∈ Finset.range rows, ∑ v ∈ Finset.range cols,
      F u v * Complex.exp ((2 * (Real.pi : ℂ) * Complex.I) *
        ((u : ℂ) * (x : ℂ) / (rows : ℂ) + (v : ℂ) * (y : ℂ) / (cols : ℂ)))

/-- numpy.fft.fftshift on a 2-D array: a circular shift by rows/2 and
cols/2 that moves the zero-frequency bin to the array center. -/
def fftshift2 (rows cols : ℕ) (F : ℕ → ℕ → ℂ) (i j : ℕ) : ℂ :=
  F (wrapIdx rows ((i : ℤ) - (rows / 2 : ℕ))) (wrapIdx cols ((j : ℤ) - (cols / 2 : ℕ)))

/-- numpy.fft.ifftshift on a 2-D array: the inverse circular shift, by
−(rows/2) and −(cols/2). -/
def ifftshift2 (rows cols : ℕ) (F : ℕ → ℕ → ℂ) (i j : ℕ) : ℂ :=
  F (wrapIdx rows ((i : ℤ) + (rows / 2 : ℕ))) (wrapIdx cols ((j : ℤ) + (cols / 2 : ℕ)))

/-- The complex value frequency_filter.py computes for one band before
storing it (lines 42-46): the inverse transform of the unshifted product
of the centered forward transform with the mask. -/
def bandFiltered (rows cols : ℕ) (band : ℕ → ℕ → ℂ) (mask : ℕ → ℕ → ℝ) (x y : ℕ) : ℂ :=
  ifft2 rows cols
    (ifftshift2 rows cols
      (fun u v => fftshift2 rows cols (fft2 rows cols band) u v * (mask u v : ℂ)))
    x y

/-- frequency_filter.py: the returned value at pixel (x, y) of band b for
b < bands.  filteredImage is created by numpy.zeros as a real-valued
array, so the store on line 46 keeps only the real part of the inverse
transform; delta is then added and the whole array cast to complex128. -/
def frequency_filter (rows cols bands : ℕ) (im : ℕ → ℕ → ℕ → ℂ) (mask : ℕ → ℕ → ℝ)
    (delta : ℝ) (x y b : ℕ) : ℂ :=
  (((bandFiltered rows cols (fun r c => im r c b) mask x y).re + delta : ℝ) : ℂ)

end

/-! Basic facts about the embedded grids. -/

theorem distVal_nonneg (rows cols i j : ℕ) : 0 ≤ distVal rows cols i j :=
  Real.sqrt_nonneg _

theorem centeredDist_nonneg (rows cols i j : ℕ) : 0 ≤ centeredDist rows cols i j :=
  Real.sqrt_nonneg _

theorem centeredDist_center (rows cols : ℕ) :
    centeredDist rows cols (rows / 2) (cols / 2) = 0 := by
  have h1 : wrapIdx rows (((rows / 2 : ℕ) : ℤ) - ((rows / 2 : ℕ) : ℤ)) = 0 := by
    simp [wrapIdx]
  have h2 : wrapIdx cols (((cols / 2 : ℕ) : ℤ) - ((cols / 2 : ℕ) : ℤ)) = 0 := by
    simp [wrapIdx]
  unfold centeredDist
  rw [h1, h2]
  unfold distVal distSq
  simp

/-- C6: the centered distance grid attains its minimum, namely zero, at
index (rows/2, cols/2) (integer division), for every positive extent; in
particular the minimum is zero for even extents. -/
theorem centeredDist_min_at_center (rows cols : ℕ) (hr : 0 < rows) (hc : 0 < cols)
    (i j : ℕ) :
    centeredDist rows cols (rows / 2) (cols / 2) = 0 ∧
    centeredDist rows cols (rows / 2) (cols / 2) ≤ centeredDist rows cols i j := by
  refine ⟨centeredDist_center rows cols, ?_⟩
  rw [centeredDist_center rows cols]
  exact centeredDist_nonneg rows cols i j

/-- Witness for C6 at the concrete extent 4 × 4 and pixel (0, 0). -/
theorem centeredDist_min_at_center_witness :
    centeredDist 4 4 2 2 = 0 ∧ centeredDist 4 4 2 2 ≤ centeredDist 4 4 0 0 :=
  centeredDist_min_at_center 4 4 (by norm_num) (by norm_num) 0 0

/-- C1: the three derived families are exact pixelwise complements of
their base families — highpass = 1 − lowpass (hence lowpass + highpass
= 1 everywhere), bandpass = 1 − bandreject, and notchpass =
1 − notchreject — for every extent, parameter setting and shape. -/
theorem derived_families_are_complements
    (rows cols : ℕ) (cutoff radialCenter bandwidth : ℝ) (order : ℕ)
    (shape : FilterShape) (centers : List (ℤ × ℤ)) (radii : List ℝ) (i j : ℕ) :
    filter_highpass rows cols cutoff order shape i j
        = 1 - filter_lowpass rows cols cutoff order shape i j ∧
    filter_lowpass rows cols cutoff order shape i j
        + filter_highpass rows cols cutoff order shape i j = 1 ∧
    filter_bandpass rows cols radialCenter bandwidth order shape i j
        = 1 - filter_bandreject rows cols radialCenter bandwidth order shape i j ∧
    ∀ m p, filter_notchreject rows cols centers radii order shape = .ok m →
      filter_notchpass rows cols centers radii order shape = .ok p →
      p i j = 1 - m i j := by
  refine ⟨rfl, by unfold filter_highpass; ring, rfl, ?_⟩
  intro m p hm hp
  rw [filter_notchpass, hm] at hp
  simp only [Except.map] at hp
  cases hp
  rfl

/-- Witness for C1 at extent 2 × 2, cutoff 1, order 1, Ideal shape, and
the empty notch specification. -/
theorem derived_families_are_complements_witness :
    filter_highpass 2 2 1 1 .ideal 0 0 = 1 - filter_lowpass 2 2 1 1 .ideal 0 0 ∧
    maskOf (filter_notchpass 2 2 [] [] 1 .ideal) 0 0
      = 1 - maskOf (filter_notchreject 2 2 [] [] 1 .ideal) 0 0 := by
  obtain ⟨h1, _, _, h4⟩ :=
    derived_families_are_complements 2 2 1 1 1 1 .ideal [] [] 0 0
  exact ⟨h1, h4 _ _ rfl rfl⟩

/-- C10: with empty center and radius lists, filter_notchreject succeeds
for every shape and returns the identity (all-ones) mask, and
filter_notchpass correspondingly returns the all-zeros mask. -/
theorem notchreject_empty_identity (rows cols order : ℕ) (shape : FilterShape) (i j : ℕ) :
    filter_notchreject rows cols [] [] order shape = .ok (fun _ _ => 1) ∧
    (∀ p, filter_notchpass rows cols [] [] order shape = .ok p → p i j = 0) := by
  refine ⟨rfl, ?_⟩
  intro p hp
  rw [filter_notchpass] at hp
  simp only [filter_notchreject, notchLoop, Except.map] at hp
  cases hp
  norm_num

/-- Witness for C10 at extent 3 × 5, order 2, Gaussian shape, pixel (1, 2). -/
theorem notchreject_empty_identity_witness :
    filter_notchreject 3 5 [] [] 2 .gaussian = .ok (fun _ _ => 1) ∧
    maskOf (filter_notchpass 3 5 [] [] 2 .gaussian) 1 2 = 0 := by
  obtain ⟨h1, h2⟩ := notchreject_empty_identity 3 5 2 .gaussian 1 2
  exact ⟨h1, h2 _ rfl⟩

/-! The Ideal shape produces binary masks, and the notch loop's
success/failure behavior is decided by the two list lengths. -/

theorem notchLoop_ideal_binary (rows cols order : ℕ) :
    ∀ (centers : List (ℤ × ℤ)) (radii : List ℝ) (mask m : ℕ → ℕ → ℝ),
      (∀ i j, mask i j = 0 ∨ mask i j = 1) →
      notchLoop rows cols order .ideal centers radii mask = .ok m →
      ∀ i j, m i j = 0 ∨ m i j = 1 := by
  intro centers
  induction centers with
  | nil =>
      intro radii mask m hmask h
      simp only [notchLoop] at h
      cases h
      exact hmask
  | cons c cs ih =>
      intro radii mask m hmask h
      cases radii with
      | nil => simp only [notchLoop] at h; cases h
      | cons ρ ρs =>
          simp only [notchLoop] at h
          refine ih ρs _ m ?_ h
          intro i j
          simp only [notchStep]
          by_cases hd : notchD1 rows cols c.1 c.2 i j ≤ ρ ∨ notchD2 rows cols c.1 c.2 i j ≤ ρ
          · simp [hd]
          · simp only [if_neg hd]
            exact hmask i j

theorem notchLoop_length_cases (rows cols order : ℕ) (shape : FilterShape) :
    ∀ (centers : List (ℤ × ℤ)) (radii : List ℝ) (mask : ℕ → ℕ → ℝ),
      (centers.length ≤ radii.length →
        ∃ m, notchLoop rows cols order shape centers radii mask = .ok m) ∧
      (radii.length < centers.length →
        notchLoop rows cols order shape centers radii mask = .error .indexError) := by
  intro centers
  induction centers with
  | nil =>
      intro radii mask
      exact ⟨fun _ => ⟨mask, rfl⟩, fun h => absurd h (by simp)⟩
  | cons c cs ih =>
      intro radii mask
      cases radii with
      | nil =>
          refine ⟨fun h => absurd h (by simp), fun _ => ?_⟩
          simp only [notchLoop]
      | cons ρ ρs =>
          constructor
          · intro h
            simp only [notchLoop]
            exact (ih ρs _).1 (by simpa using h)
          · intro h
            simp only [notchLoop]
            exact (ih ρs _).2 (by simpa using h)

/-- C5: every Ideal-shaped mask of the six families is binary — each
element is exactly 0 or exactly 1. -/
theorem ideal_masks_binary (rows cols : ℕ) (cutoff radialCenter bandwidth : ℝ)
    (order : ℕ) (centers : List (ℤ × ℤ)) (radii : List ℝ) (i j : ℕ) :
    (filter_lowpass rows cols cutoff order .ideal i j = 0 ∨
      filter_lowpass rows cols cutoff order .ideal i j = 1) ∧
    (filter_highpass rows cols cutoff order .ideal i j = 0 ∨
      filter_highpass rows cols cutoff order .ideal i j = 1) ∧
    (filter_bandreject rows cols radialCenter bandwidth order .ideal i j = 0 ∨
      filter_bandreject rows cols radialCenter bandwidth order .ideal i j = 1) ∧
    (filter_bandpass rows cols radialCenter bandwidth order .ideal i j = 0 ∨
      filter_bandpass rows cols radialCenter bandwidth order .ideal i j = 1) ∧
    (∀ m, filter_notchreject rows cols centers radii order .ideal = .ok m →
      m i j = 0 ∨ m i j = 1) ∧
    (∀ p, filter_notchpass rows cols centers radii order .ideal = .ok p →
      p i j = 0 ∨ p i j = 1) := by
  have hlow : filter_lowpass rows cols cutoff order .ideal i j = 0 ∨
      filter_lowpass rows cols cutoff order .ideal i j = 1 := by
    simp only [filter_lowpass]
    by_cases h : centeredDist rows cols i j ≤ cutoff
    · right; simp [h]
    · left; simp [h]
  have hband : filter_bandreject rows cols radialCenter bandwidth order .ideal i j = 0 ∨
      filter_bandreject rows cols radialCenter bandwidth order .ideal i j = 1 := by
    simp only [filter_bandreject]
    by_cases h : centeredDist rows cols i j < radialCenter ∨
        radialCenter + bandwidth < centeredDist rows cols i j
    · right; simp [h]
    · left; simp [h]
  have hnotch : ∀ m, filter_notchreject rows cols centers radii order .ideal = .ok m →
      ∀ a b, m a b = 0 ∨ m a b = 1 := by
    intro m hm
    simp only [filter_notchreject] at hm
    cases hloop : notchLoop rows cols order .ideal centers radii fun _ _ => 1 with
    | error e => rw [hloop] at hm; simp [Except.map] at hm
    | ok m0 =>
        rw [hloop] at hm
        simp only [Except.map] at hm
        cases hm
        have h0 := notchLoop_ideal_binary rows cols order centers radii _ m0
          (fun _ _ => Or.inr rfl) hloop
        intro a b
        exact h0 _ _
  refine ⟨hlow, ?_, hband, ?_, fun m hm => hnotch m hm i j, ?_⟩
  · unfold filter_highpass
    rcases hlow with h | h <;> rw [h] <;> norm_num
  · unfold filter_bandpass
    rcases hband with h | h <;> rw [h] <;> norm_num
  · intro p hp
    rw [filter_notchpass] at hp
    cases hrej : filter_notchreject rows cols centers radii order .ideal with
    | error e => rw [hrej] at hp; simp [Except.map] at hp
    | ok m =>
        rw [hrej] at hp
        simp only [Except.map] at hp
        cases hp
        rcases hnotch m hrej i j with h | h <;> simp [h]

/-- Witness for C5 at extent 2 × 2, cutoff 1, band [1, 2], order 1,
empty notch lists, pixel (0, 0). -/
theorem ideal_masks_binary_witness :
    (filter_lowpass 2 2 1 1 .ideal 0 0 = 0 ∨ filter_lowpass 2 2 1 1 .ideal 0 0 = 1) ∧
    (maskOf (filter_notchreject 2 2 [] [] 1 .ideal) 0 0 = 0 ∨
      maskOf (filter_notchreject 2 2 [] [] 1 .ideal) 0 0 = 1) := by
  obtain ⟨h1, _, _, _, h5, _⟩ := ideal_masks_binary 2 2 1 1 1 1 [] [] 0 0
  exact ⟨h1, h5 _ rfl⟩

/-- C4 counterexample: at the concrete mismatched input centers = [] and
radii = [1], filter_notchreject does not fail at all — it succeeds and
returns the all-ones mask — so it does not fail with InvalidParameter. -/
theorem notchreject_mismatch_counterexample :
    filter_notchreject 4 4 [] [(1 : ℝ)] 1 .ideal = .ok (fun _ _ => 1) ∧
    filter_notchreject 4 4 [] [(1 : ℝ)] 1 .ideal ≠ .error .invalidParameter := by
  exact ⟨rfl, by intro h; cases h⟩

/-- C4 amended: with mismatched list lengths filter_notchreject never
fails with InvalidParameter: when centers is longer than radii it fails
with an IndexError and returns no mask, and when radii is longer it
succeeds, returning a mask built from every center paired with the
equal-length prefix of radii. -/
theorem notchreject_mismatch_behavior (rows cols : ℕ) (centers : List (ℤ × ℤ))
    (radii : List ℝ) (order : ℕ) (shape : FilterShape)
    (hne : centers.length ≠ radii.length) :
    filter_notchreject rows cols centers radii order shape ≠ .error .invalidParameter ∧
    (centers.length < radii.length →
      ∃ m, filter_notchreject rows cols centers radii order shape = .ok m) ∧
    (radii.length < centers.length →
      filter_notchreject rows cols centers radii order shape = .error .indexError) := by
  have hcases := notchLoop_length_cases rows cols order shape centers radii (fun _ _ => 1)
  refine ⟨?_, ?_, ?_⟩
  · intro h
    simp only [filter_notchreject] at h
    rcases Nat.lt_or_ge radii.length centers.length with hlt | hge
    · rw [hcases.2 hlt] at h
      simp [Except.map] at h
    · obtain ⟨m, hm⟩ := hcases.1 hge
      rw [hm] at h
      simp [Except.map] at h
  · intro hlt
    obtain ⟨m, hm⟩ := hcases.1 hlt.le
    exact ⟨_, by simp only [filter_notchreject]; rw [hm]; rfl⟩
  · intro hlt
    simp only [filter_notchreject]
    rw [hcases.2 hlt]
    rfl

/-- Witness for C4 at the concrete input centers = [(0,0), (0,0)],
radii = [1]: the call fails with IndexError, not InvalidParameter. -/
theorem notchreject_mismatch_behavior_witness :
    filter_notchreject 4 4 [((0 : ℤ), (0 : ℤ)), (0, 0)] [(1 : ℝ)] 1 .ideal
        ≠ .error .invalidParameter ∧
    filter_notchreject 4 4 [((0 : ℤ), (0 : ℤ)), (0, 0)] [(1 : ℝ)] 1 .ideal
        = .error .indexError := by
  obtain ⟨h1, _, h3⟩ :=
    notchreject_mismatch_behavior 4 4 [((0 : ℤ), (0 : ℤ)), (0, 0)] [(1 : ℝ)] 1 .ideal
      (by simp)
  exact ⟨h1, h3 (by simp)⟩

/-! The concrete 4 × 4 Ideal lowpass scenario. -/

theorem ideal_lowpass_eq_indicator (rows cols : ℕ) (c : ℝ) (hc : 0 ≤ c)
    (order : ℕ) (i j : ℕ) :
    filter_lowpass rows cols c order .ideal i j =
      if ((distSq rows cols (wrapIdx rows ((i : ℤ) - (rows / 2 : ℕ)))
          (wrapIdx cols ((j : ℤ) - (cols / 2 : ℕ))) : ℝ) ≤ c ^ 2) then 1 else 0 := by
  have hiff : centeredDist rows cols i j ≤ c ↔
      ((distSq rows cols (wrapIdx rows ((i : ℤ) - (rows / 2 : ℕ)))
        (wrapIdx cols ((j : ℤ) - (cols / 2 : ℕ))) : ℝ) ≤ c ^ 2) := by
    rw [centeredDist, distVal, Real.sqrt_le_iff]
    simp [hc]
  simp only [filter_lowpass, hiff]

/-- The 4 × 4 mask the spec's concrete scenario claims for Ideal lowpass
at cutoff 1. -/
noncomputable def expectedLowpass4 : Fin 4 → Fin 4 → ℝ :=
  ![![0, 0, 0, 0], ![0, 0, 1, 0], ![0, 1, 1, 1], ![0, 0, 1, 0]]

/-- C7: for a 4 × 4 image, Ideal lowpass at cutoff 1 is exactly the mask
[[0,0,0,0],[0,0,1,0],[0,1,1,1],[0,0,1,0]], and Ideal highpass at cutoff 1
is its elementwise complement 1 − mask. -/
theorem lowpass_4x4_ideal_cutoff1 (order : ℕ) (i j : Fin 4) :
    filter_lowpass 4 4 1 order .ideal i j = expectedLowpass4 i j ∧
    filter_highpass 4 4 1 order .ideal i j = 1 - expectedLowpass4 i j := by
  have hlow : filter_lowpass 4 4 1 order .ideal i j = expectedLowpass4 i j := by
    rw [ideal_lowpass_eq_indicator 4 4 1 (by norm_num) order i j]
    fin_cases i <;> fin_cases j <;>
      simp [expectedLowpass4, distSq, wrapIdx, Matrix.vecHead, Matrix.vecTail]
  exact ⟨hlow, by rw [filter_highpass, hlow]⟩

/-! Behavior of the Butterworth lowpass weight in the order parameter. -/

/-- C8: at any pixel strictly beyond the cutoff distance, the Butterworth
lowpass weight strictly decreases as the order grows, the Ideal weight
there is 0, and the Butterworth weight converges to that Ideal value as
the order tends to infinity. -/
theorem butterworth_order_monotone (rows cols : ℕ) (cutoff : ℝ) (i j : ℕ)
    (hc : 0 < cutoff) (hd : cutoff < centeredDist rows cols i j)
    (o₁ o₂ : ℕ) (ho : o₁ < o₂) :
    filter_lowpass rows cols cutoff o₂ .butterworth i j
      < filter_lowpass rows cols cutoff o₁ .butterworth i j ∧
    filter_lowpass rows cols cutoff o₁ .ideal i j = 0 ∧
    Filter.Tendsto (fun o => filter_lowpass rows cols cutoff o .butterworth i j)
      Filter.atTop (nhds (filter_lowpass rows cols cutoff o₁ .ideal i j)) := by
  have hx : 1 < centeredDist rows cols i j / cutoff := (one_lt_div hc).2 hd
  have hx0 : 0 < centeredDist rows cols i j / cutoff := lt_trans one_pos hx
  have hpos : ∀ o : ℕ, 0 < 1 + (centeredDist rows cols i j / cutoff) ^ (2 * o) := by
    intro o
    positivity
  have hideal : filter_lowpass rows cols cutoff o₁ .ideal i j = 0 := by
    simp only [filter_lowpass]
    rw [if_neg (not_le.2 hd)]
  refine ⟨?_, hideal, ?_⟩
  · simp only [filter_lowpass]
    apply one_div_lt_one_div_of_lt (hpos o₁)
    have := pow_lt_pow_right₀ hx (show 2 * o₁ < 2 * o₂ by omega)
    linarith
  · rw [hideal]
    simp only [filter_lowpass, one_div]
    have h2 : Filter.Tendsto (fun o : ℕ => 2 * o) Filter.atTop Filter.atTop :=
      Filter.tendsto_atTop_mono (fun n => Nat.le_mul_of_pos_left n two_pos)
        Filter.tendsto_id
    have h3 : Filter.Tendsto
        (fun o : ℕ => (centeredDist rows cols i j / cutoff) ^ (2 * o))
        Filter.atTop Filter.atTop :=
      (tendsto_pow_atTop_atTop_of_one_lt hx).comp h2
    have h4 : Filter.Tendsto
        (fun o : ℕ => 1 + (centeredDist rows cols i j / cutoff) ^ (2 * o))
        Filter.atTop Filter.atTop :=
      Filter.tendsto_atTop_add_const_left _ 1 h3
    exact h4.inv_tendsto_atTop

/-- Witness for C8 at extent 4 × 4, cutoff 1, pixel (0, 0) (distance √8),
orders 1 < 2. -/
theorem butterworth_order_monotone_witness :
    filter_lowpass 4 4 1 2 .butterworth 0 0 < filter_lowpass 4 4 1 1 .butterworth 0 0 ∧
    filter_lowpass 4 4 1 1 .ideal 0 0 = 0 ∧
    Filter.Tendsto (fun o => filter_lowpass 4 4 1 o .butterworth 0 0)
      Filter.atTop (nhds (filter_lowpass 4 4 1 1 .ideal 0 0)) := by
  have hdist : centeredDist 4 4 0 0 = Real.sqrt 8 := by
    norm_num [centeredDist, distVal, distSq, wrapIdx, show Int.toNat 2 = 2 from rfl]
  have hd : (1 : ℝ) < centeredDist 4 4 0 0 := by
    rw [hdist]
    rw [show (8 : ℝ) = ((8 : ℕ) : ℝ) by norm_num] at *
    rw [Real.lt_sqrt (by norm_num)]
    norm_num
  exact butterworth_order_monotone 4 4 1 0 0 (by norm_num) hd 1 2 (by norm_num)

/-! Index arithmetic for the circular shifts, and the single-notch
scenario at the zero-frequency bin. -/

theorem wrapIdx_lt (n : ℕ) (hn : 0 < n) (k : ℤ) : wrapIdx n k < n := by
  unfold wrapIdx
  have h1 := Int.emod_lt_of_pos k (show (0 : ℤ) < n by exact_mod_cast hn)
  have h2 := Int.emod_nonneg k (show (n : ℤ) ≠ 0 by exact_mod_cast hn.ne')
  omega

theorem wrapIdx_coe (n : ℕ) (hn : 0 < n) (k : ℤ) : ((wrapIdx n k : ℕ) : ℤ) = k % n := by
  unfold wrapIdx
  rw [Int.toNat_of_nonneg (Int.emod_nonneg k (show (n : ℤ) ≠ 0 by exact_mod_cast hn.ne'))]

theorem wrapIdx_shift (n : ℕ) (hn : 0 < n) (a b : ℤ) :
    wrapIdx n ((wrapIdx n a : ℕ) - b) = wrapIdx n (a - b) := by
  rw [wrapIdx_coe n hn a]
  unfold wrapIdx
  congr 1
  conv_lhs => rw [Int.sub_emod]
  rw [Int.emod_emod_of_dvd _ dvd_rfl, ← Int.sub_emod]

theorem wrapIdx_sub_extent (n : ℕ) (a : ℤ) : wrapIdx n (a - n) = wrapIdx n a := by
  unfold wrapIdx
  congr 1
  rw [Int.sub_emod, Int.emod_self, sub_zero, Int.emod_emod_of_dvd _ dvd_rfl]

theorem wrapIdx_of_lt (n p : ℕ) (hp : p < n) : wrapIdx n (p : ℤ) = p := by
  unfold wrapIdx
  rw [Int.emod_eq_of_lt (by positivity) (by exact_mod_cast hp)]
  simp

theorem wrapIdx_sub_eq_zero_iff (n : ℕ) (hn : 0 < n) (i c : ℕ) (hi : i < n) (hc : c < n) :
    wrapIdx n ((i : ℤ) - (c : ℤ)) = 0 ↔ i = c := by
  unfold wrapIdx
  constructor
  · intro h
    have hnn := Int.emod_nonneg ((i : ℤ) - c) (show (n : ℤ) ≠ 0 by exact_mod_cast hn.ne')
    have h0 : ((i : ℤ) - c) % n = 0 := by omega
    rcases le_or_lt 0 ((i : ℤ) - c) with hge | hlt
    · have := Int.emod_eq_of_lt hge (show (i : ℤ) - (c : ℤ) < (n : ℤ) by omega)
      omega
    · have heq : ((i : ℤ) - c) % n = ((i : ℤ) - c + n) % n := by
        conv_rhs => rw [show (i : ℤ) - c + n = (i : ℤ) - c + n * 1 by ring]
        rw [Int.add_mul_emod_self_left]
      have h3 : ((i : ℤ) - c + n) % n = (i : ℤ) - c + n :=
        Int.emod_eq_of_lt (by omega) (by omega)
      omega
  · intro h
    subst h
    simp

theorem distSq_eq_zero_iff (rows cols a b : ℕ) (ha : a < rows) (hb : b < cols) :
    distSq rows cols a b = 0 ↔ a = 0 ∧ b = 0 := by
  rw [distSq, Nat.add_eq_zero, pow_eq_zero_iff (two_ne_zero), pow_eq_zero_iff (two_ne_zero),
    Nat.min_eq_zero_iff, Nat.min_eq_zero_iff]
  omega

theorem distVal_le_iff_of_lt_one (rows cols a b : ℕ) (ρ : ℝ)
    (hρ0 : 0 < ρ) (hρ1 : ρ < 1) :
    distVal rows cols a b ≤ ρ ↔ distSq rows cols a b = 0 := by
  unfold distVal
  constructor
  · intro h
    by_contra hne
    have h1 : (1 : ℝ) ≤ (distSq rows cols a b : ℝ) :=
      by exact_mod_cast Nat.one_le_iff_ne_zero.2 hne
    have h2 : (1 : ℝ) ≤ Real.sqrt (distSq rows cols a b) := by
      rw [show (1 : ℝ) = Real.sqrt 1 by rw [Real.sqrt_one]]
      exact Real.sqrt_le_sqrt h1
    linarith
  · intro h
    rw [h]
    simpa using hρ0.le

/-- C9 amended: on an even square extent, a single Ideal notch at (0, 0)
with radius 0 < ρ < 1 zeroes exactly the zero-frequency bin at the grid
center (n/2, n/2) and leaves every other pixel at weight 1. -/
theorem notchreject_dc_notch (n : ℕ) (hn : 0 < n) (heven : n % 2 = 0)
    (ρ : ℝ) (hρ0 : 0 < ρ) (hρ1 : ρ < 1) (order : ℕ) (m : ℕ → ℕ → ℝ)
    (hm : filter_notchreject n n [(0, 0)] [ρ] order .ideal = .ok m)
    (i j : ℕ) (hi : i < n) (hj : j < n) :
    m i j = if i = n / 2 ∧ j = n / 2 then 0 else 1 := by
  have hhalf : n / 2 < n := Nat.div_lt_self hn (by norm_num)
  have key : ∀ p : ℕ, p < n →
      wrapIdx n ((wrapIdx n ((p : ℤ) - ((n / 2 : ℕ) : ℤ)) : ℕ) - ((n / 2 : ℕ) : ℤ)) = p := by
    intro p hp
    rw [wrapIdx_shift n hn]
    rw [show (p : ℤ) - ((n / 2 : ℕ) : ℤ) - ((n / 2 : ℕ) : ℤ) = (p : ℤ) - n by omega]
    rw [wrapIdx_sub_extent]
    exact wrapIdx_of_lt n p hp
  simp only [filter_notchreject, notchLoop, Except.map] at hm
  cases hm
  simp only [notchStep, notchD1, notchD2, centeredDist]
  set a : ℕ := wrapIdx n ((i : ℤ) - ((n / 2 : ℕ) : ℤ)) with hadef
  set b : ℕ := wrapIdx n ((j : ℤ) - ((n / 2 : ℕ) : ℤ)) with hbdef
  have han : a < n := wrapIdx_lt n hn _
  have hbn : b < n := wrapIdx_lt n hn _
  have hD : distVal n n
      (wrapIdx n ((wrapIdx n ((a : ℤ) - (((n / 2 : ℕ) : ℤ) - 0)) : ℕ) - ((n / 2 : ℕ) : ℤ)))
      (wrapIdx n ((wrapIdx n ((b : ℤ) - (((n / 2 : ℕ) : ℤ) - 0)) : ℕ) - ((n / 2 : ℕ) : ℤ)))
      = distVal n n a b := by
    rw [sub_zero]
    rw [key a han, key b hbn]
  have hD' : distVal n n
      (wrapIdx n ((wrapIdx n ((a : ℤ) - (((n / 2 : ℕ) : ℤ) + 0)) : ℕ) - ((n / 2 : ℕ) : ℤ)))
      (wrapIdx n ((wrapIdx n ((b : ℤ) - (((n / 2 : ℕ) : ℤ) + 0)) : ℕ) - ((n / 2 : ℕ) : ℤ)))
      = distVal n n a b := by
    rw [add_zero]
    rw [key a han, key b hbn]
  simp only [distVal] at hD hD'
  simp only [distVal, hD, hD']
  have hcond : (Real.sqrt ((distSq n n a b : ℕ) : ℝ) ≤ ρ) ↔ (i = n / 2 ∧ j = n / 2) := by
    have hiff := distVal_le_iff_of_lt_one n n a b ρ hρ0 hρ1
    rw [distVal] at hiff
    rw [hiff, distSq_eq_zero_iff n n a b han hbn, hadef, hbdef,
      wrapIdx_sub_eq_zero_iff n hn i (n / 2) hi hhalf,
      wrapIdx_sub_eq_zero_iff n hn j (n / 2) hj hhalf]
  have hcond2 : (Real.sqrt ((distSq n n a b : ℕ) : ℝ) ≤ ρ ∨
      Real.sqrt ((distSq n n a b : ℕ) : ℝ) ≤ ρ) ↔ (i = n / 2 ∧ j = n / 2) := by
    rw [or_self]
    exact hcond
  by_cases hij : i = n / 2 ∧ j = n / 2
  · rw [if_pos (hcond2.2 hij), if_pos hij]
  · rw [if_neg (fun hle => hij (hcond2.1 hle)), if_neg hij]

/-- C9 counterexample: on a 4 × 4 extent with the claimed-admissible
radius 1, the Ideal notch at (0, 0) zeroes pixel (1, 2) as well, which is
not the grid center (2, 2), so not every other pixel keeps weight 1. -/
theorem notchreject_dc_counterexample :
    maskOf (filter_notchreject 4 4 [((0 : ℤ), (0 : ℤ))] [(1 : ℝ)] 1 .ideal) 1 2 = 0 ∧
    maskOf (filter_notchreject 4 4 [((0 : ℤ), (0 : ℤ))] [(1 : ℝ)] 1 .ideal) 1 2 ≠ 1 := by
  have h : maskOf (filter_notchreject 4 4 [((0 : ℤ), (0 : ℤ))] [(1 : ℝ)] 1 .ideal) 1 2
      = notchStep 4 4 1 .ideal 0 0 1 (fun _ _ => 1) 3 0 := rfl
  have h1 : notchD1 4 4 0 0 3 0 ≤ 1 := by
    have h2 : notchD1 4 4 0 0 3 0 = Real.sqrt ((1 : ℕ) : ℝ) := rfl
    rw [h2]
    norm_num
  have hv : maskOf (filter_notchreject 4 4 [((0 : ℤ), (0 : ℤ))] [(1 : ℝ)] 1 .ideal) 1 2
      = 0 := by
    rw [h]
    simp only [notchStep]
    rw [if_pos (Or.inl h1)]
  exact ⟨hv, by rw [hv]; norm_num⟩

/-- Witness for the amended C9 at extent 4 × 4, radius 1/2: the mask is 0
at the center (2, 2) and 1 at (1, 2). -/
theorem notchreject_dc_notch_witness :
    maskOf (filter_notchreject 4 4 [((0 : ℤ), (0 : ℤ))] [(1 / 2 : ℝ)] 1 .ideal) 2 2 = 0 ∧
    maskOf (filter_notchreject 4 4 [((0 : ℤ), (0 : ℤ))] [(1 / 2 : ℝ)] 1 .ideal) 1 2 = 1 := by
  have hc := notchreject_dc_notch 4 (by norm_num) (by norm_num) (1 / 2) (by norm_num)
    (by norm_num) 1 (maskOf (filter_notchreject 4 4 [((0 : ℤ), (0 : ℤ))] [(1 / 2 : ℝ)] 1 .ideal))
    rfl 2 2 (by norm_num) (by norm_num)
  have ho := notchreject_dc_notch 4 (by norm_num) (by norm_num) (1 / 2) (by norm_num)
    (by norm_num) 1 (maskOf (filter_notchreject 4 4 [((0 : ℤ), (0 : ℤ))] [(1 / 2 : ℝ)] 1 .ideal))
    rfl 1 2 (by norm_num) (by norm_num)
  constructor
  · rw [hc]; norm_num
  · rw [ho]; norm_num

/-! The continuous band/notch weight computations divide by denominators
that vanish on admissible inputs; no epsilon substitution takes place. -/

/-- C3: the denominators the Butterworth/Gaussian band and notch weights
divide by are exactly zero at admissible pixels — the notch product
D1·D2 at the pixel coinciding with a (0,0) notch center, the Butterworth
band term d² − r² on the circle d = r, and the Gaussian band term d·w at
the grid center — so the divisions are performed on unguarded zero
denominators (the source's lone substitution attempt,
productOfDs[productOfDs == 0] == 1e-10, is a comparison, not an
assignment). -/
theorem zero_denominators_unguarded :
    productOfDs 4 4 0 0 0 0 = 0 ∧
    bandButterDenom 4 4 2 0 2 = 0 ∧
    bandGaussDenom 4 4 3 2 2 = 0 := by
  have h0 : centeredDist 4 4 2 2 = 0 := centeredDist_center 4 4
  refine ⟨?_, ?_, ?_⟩
  · have h1 : productOfDs 4 4 0 0 0 0
        = centeredDist 4 4 2 2 * centeredDist 4 4 2 2 := rfl
    rw [h1, h0, mul_zero]
  · have h2 : bandButterDenom 4 4 2 0 2 = Real.sqrt ((4 : ℕ) : ℝ) ^ 2 - 2 ^ 2 := rfl
    rw [h2, Real.sq_sqrt (by norm_num)]
    norm_num
  · have h3 : bandGaussDenom 4 4 3 2 2 = centeredDist 4 4 2 2 * 3 := rfl
    rw [h3, h0, zero_mul]

/-! The application step stores each band's inverse transform into a
real-valued array, so the returned image's imaginary component is zero. -/

theorem exp_neg_pi_div_two_mul_I :
    Complex.exp (-((Real.pi : ℂ) / 2) * Complex.I) = -Complex.I := by
  rw [Complex.exp_mul_I, Complex.cos_neg, Complex.sin_neg,
    Complex.cos_pi_div_two, Complex.sin_pi_div_two]
  ring

/-- C2: the value frequency_filter returns always has imaginary part
zero — the store into the numpy.zeros float array discards it — although
the complex value the pipeline computes for a band can have nonzero
imaginary part: for the 4 × 1 single-band image with a 1 at row 1 and the
mask selecting only centered bin 3, the inverse transform at pixel (0, 0)
is −i/4, with imaginary part −1/4, while the function returns 0. -/
theorem frequency_filter_discards_imaginary :
    (∀ (rows cols bands : ℕ) (im : ℕ → ℕ → ℕ → ℂ) (mask : ℕ → ℕ → ℝ)
      (delta : ℝ) (x y b : ℕ),
      (frequency_filter rows cols bands im mask delta x y b).im = 0) ∧
    (bandFiltered 4 1 (fun x _ => if x = 1 then 1 else 0)
        (fun u _ => if u = 3 then 1 else 0) 0 0).im = -(1 / 4) ∧
    frequency_filter 4 1 1 (fun x _ _ => if x = 1 then 1 else 0)
        (fun u _ => if u = 3 then 1 else 0) 0 0 0 0 = 0 := by
  have him : ∀ (rows cols bands : ℕ) (im : ℕ → ℕ → ℕ → ℂ) (mask : ℕ → ℕ → ℝ)
      (delta : ℝ) (x y b : ℕ),
      (frequency_filter rows cols bands im mask delta x y b).im = 0 := by
    intro rows cols bands im mask delta x y b
    simp [frequency_filter]
  set f : ℕ → ℕ → ℂ := fun x _ => if x = 1 then 1 else 0 with hf
  set mask : ℕ → ℕ → ℝ := fun u _ => if u = 3 then 1 else 0 with hmask
  set G : ℕ → ℕ → ℂ :=
    ifftshift2 4 1 (fun u v => fftshift2 4 1 (fft2 4 1 f) u v * (mask u v : ℂ)) with hG
  have e1 : -(2 * (Real.pi : ℂ) * Complex.I) *
      (((1 : ℕ) : ℂ) * ((1 : ℕ) : ℂ) / ((4 : ℕ) : ℂ) +
        ((0 : ℕ) : ℂ) * ((0 : ℕ) : ℂ) / ((1 : ℕ) : ℂ))
      = -((Real.pi : ℂ) / 2) * Complex.I := by
    push_cast
    ring
  have hF : fft2 4 1 f 1 0 = -Complex.I := by
    simp only [fft2, Finset.sum_range_succ, Finset.sum_range_zero, Finset.sum_range_one,
      e1, exp_neg_pi_div_two_mul_I, hf]
    norm_num
  have hG0 : G 0 0 = 0 := by
    have h : G 0 0 = fftshift2 4 1 (fft2 4 1 f) 2 0 * ((mask 2 0 : ℝ) : ℂ) := rfl
    rw [h, hmask]
    norm_num
  have hG2 : G 2 0 = 0 := by
    have h : G 2 0 = fftshift2 4 1 (fft2 4 1 f) 0 0 * ((mask 0 0 : ℝ) : ℂ) := rfl
    rw [h, hmask]
    norm_num
  have hG3 : G 3 0 = 0 := by
    have h : G 3 0 = fftshift2 4 1 (fft2 4 1 f) 1 0 * ((mask 1 0 : ℝ) : ℂ) := rfl
    rw [h, hmask]
    norm_num
  have hG1 : G 1 0 = -Complex.I := by
    have h : G 1 0 = fft2 4 1 f 1 0 * ((mask 3 0 : ℝ) : ℂ) := rfl
    rw [h, hF, hmask]
    norm_num
  have hval : bandFiltered 4 1 f mask 0 0 = -Complex.I / 4 := by
    have hB : bandFiltered 4 1 f mask 0 0 = ifft2 4 1 G 0 0 := rfl
    rw [hB]
    simp only [ifft2, Finset.sum_range_succ, Finset.sum_range_zero, Finset.sum_range_one,
      hG0, hG1, hG2, hG3]
    norm_num
    ring
  refine ⟨him, ?_, ?_⟩
  · rw [hval]
    have : -Complex.I / 4 = ((-(1 / 4) : ℝ) : ℂ) * Complex.I := by
      push_cast
      ring
    rw [this]
    simp [Complex.mul_im]
  · have h := him 4 1 1 (fun x _ _ => if x = 1 then 1 else 0) mask 0 0 0 0
    have hre : (bandFiltered 4 1 (fun r c => if r = 1 then (1 : ℂ) else 0) mask 0 0).re
        = 0 := by
      have hfr : (fun r c : ℕ => if r = 1 then (1 : ℂ) else 0) = f := rfl
      rw [hfr, hval]
      have : -Complex.I / 4 = ((-(1 / 4) : ℝ) : ℂ) * Complex.I := by
        push_cast
        ring
      rw [this]
      simp [Complex.mul_re]
    simp only [frequency_filter]
    rw [show (fun r c => (fun x _ _ => if x = 1 then (1 : ℂ) else 0) r c 0)
      = (fun r c : ℕ => if r = 1 then (1 : ℂ) else 0) from rfl]
    rw [hre]
    norm_num

end Ipcv
